import Mathlib

/-!
Shallow embedding of the sampling-and-estimation core of SALib:
`SALib/analyze/sobol_jansen.py`, `SALib/sample/radial.py` and
`SALib/sample/latin.py`.

Machine floats are modelled as exact rationals and numpy arrays as lists.
The external collaborators that are not part of this core (the
low-discrepancy sequence generator `sobol_sequence`, the scaling helpers
`scale_samples` / `nonuniform_scale_samples`, scipy's `norm.ppf`, the square
root inside `ndarray.std`, and the pseudo-random draws of `np.random`) enter
as explicit function parameters, modelled from the spec where their code is
not under src/.
-/

/-- A SALib problem specification, per the spec's data model: `num_vars`,
`names`, `bounds` and the optional `dists`. -/
structure Problem where
  num_vars : Nat
  names : List String
  bounds : List (ℚ × ℚ)
  dists : Option (List String)
deriving DecidableEq

/-- The sensitivity result `analyze` builds: the `ResultDict` with keys
`names`, `ST` and `ST_conf`. -/
structure SensResult where
  names : List String
  ST : List ℚ
  ST_conf : List ℚ
deriving DecidableEq

/-- The Python exceptions the embedded `analyze` can raise. -/
inductive PyError where
  /-- the `assert (Y.shape[0] / sample_sets) == num_vars + 1` fails -/
  | shapeAssertionFailed
  /-- `np.random.set_seed` does not exist in numpy, so reaching that line
  raises an AttributeError -/
  | setSeedMissing
  /-- the `raise ValueError("Confidence level must be between 0-1.")` -/
  | confLevelInvalid
deriving DecidableEq

/-- Python truthiness of the optional `seed` argument: `if seed:` is taken
for a seed that is neither `None` nor `0`. -/
def seedTruthy : Option Int → Bool
  | none => false
  | some s => s != 0

/-- Python extended slice `Y[start::step]` for `step ≥ 1`: the elements at
indices `start, start+step, ...` below `Y.length`. -/
def pySlice (Y : List ℚ) (start step : Nat) : List ℚ :=
  (List.range ((Y.length - start + step - 1) / step)).map fun k =>
    Y.getD (start + k * step) 0

/-- numpy `np.var` at its default `ddof=0`: the mean of the squared
deviations from the mean. -/
def npVar (xs : List ℚ) : ℚ :=
  ((xs.map fun x => (x - xs.sum / xs.length) ^ 2).sum) / xs.length

/-- numpy `arr.std(ddof=1)` along one axis, for the one column `xs`:
the square root (supplied by the numerical collaborator `sqrtQ`) of the sum
of squared deviations divided by `len - 1`. -/
def npStdDdof1 (sqrtQ : ℚ → ℚ) (xs : List ℚ) : ℚ :=
  sqrtQ (((xs.map fun x => (x - xs.sum / xs.length) ^ 2).sum) / ((xs.length : ℚ) - 1))

/-- `jansen_estimator(N, si)` from `sobol_jansen.py`:
`(1.0/(2.0*N)) * np.sum(si**2, axis=0)`, written for one column of `si`
(summing a column over axis 0 is summing that column). -/
def jansen_estimator (N : Nat) (si : List ℚ) : ℚ :=
  (1 / (2 * (N : ℚ))) * ((si.map fun x => x ^ 2).sum)

/-- Row `i` of the `st` matrix `analyze` fills: `Y_base - Y[(i+1)::nth]`
with `nth = num_vars + 1` and `Y_base = Y[0::nth]`. -/
def stRow (Y : List ℚ) (num_vars i : Nat) : List ℚ :=
  List.zipWith (fun a b => a - b) (pySlice Y 0 (num_vars + 1))
    (pySlice Y (i + 1) (num_vars + 1))

/-- The `ST` vector of `analyze`: `jansen_estimator(r, st.T) / base_variance`,
taken column by column (axis 0 of `st.T` is the replicate axis). -/
def analyzeST (Y : List ℚ) (sample_sets num_vars : Nat) : List ℚ :=
  (List.range num_vars).map fun i =>
    jansen_estimator sample_sets (stRow Y num_vars i)
      / npVar (pySlice Y 0 (num_vars + 1))

/-- The vector `compute_radial_si_confidence` returns when its check passes.
`ridx t k` is entry `(t, k)` of `resample_index = np.random.randint(N, size=(num_resamples, N))`,
a collaborator draw in `[0, N)`.  Note the source applies `jansen_estimator`
to the three-dimensional `si_resampled`, so `np.sum(si**2, axis=0)` sums over
the resample axis and yields a `(N, num_vars)` array, and the
`std(ddof=1, axis=0)` then runs over the replicate axis of length `N`. -/
def confVec (ppf sqrtQ : ℚ → ℚ) (ridx : Nat → Nat → Nat)
    (Y : List ℚ) (sample_sets num_vars num_resamples : Nat) (conf_level : ℚ) :
    List ℚ :=
  (List.range num_vars).map fun i =>
    ppf (1 / 2 + conf_level / 2) *
      npStdDdof1 sqrtQ ((List.range sample_sets).map fun k =>
        jansen_estimator sample_sets
          ((List.range num_resamples).map fun t =>
            (stRow Y num_vars i).getD (ridx t k) 0)
          / npVar (pySlice Y 0 (num_vars + 1)))

/-- `compute_radial_si_confidence` from `sobol_jansen.py`: raises a
ValueError unless `0 < conf_level < 1`, otherwise bootstraps the Jansen
statistic and scales its `ddof=1` standard deviation by
`norm.ppf(0.5 + conf_level/2)`. -/
def compute_radial_si_confidence (ppf sqrtQ : ℚ → ℚ) (ridx : Nat → Nat → Nat)
    (Y : List ℚ) (sample_sets num_vars num_resamples : Nat) (conf_level : ℚ) :
    Except PyError (List ℚ) :=
  if 0 < conf_level ∧ conf_level < 1 then
    .ok (confVec ppf sqrtQ ridx Y sample_sets num_vars num_resamples conf_level)
  else
    .error .confLevelInvalid

/-- `analyze` from `sobol_jansen.py`.  Control flow of the source: the shape
assertion on `Y.shape[0] / sample_sets` comes first; then `if seed:` calls
`np.random.set_seed(seed)`, an attribute numpy does not have, so any truthy
seed raises an AttributeError; then the indices and the confidence bounds
are computed, `compute_radial_si_confidence` raising a ValueError for an
invalid `conf_level`. -/
def analyze (ppf sqrtQ : ℚ → ℚ) (ridx : Nat → Nat → Nat)
    (problem : Problem) (Y : List ℚ) (sample_sets num_resamples : Nat)
    (conf_level : ℚ) (seed : Option Int) : Except PyError SensResult :=
  let num_vars := problem.num_vars
  if (Y.length : ℚ) / (sample_sets : ℚ) = (num_vars : ℚ) + 1 then
    if seedTruthy seed then
      .error .setSeedMissing
    else
      match compute_radial_si_confidence ppf sqrtQ ridx Y sample_sets num_vars
          num_resamples conf_level with
      | .ok conf =>
          .ok { names := problem.names
                ST := analyzeST Y sample_sets num_vars
                ST_conf := conf }
      | .error e => .error e
  else
    .error .shapeAssertionFailed

/-- The `ST` component of an `analyze` outcome at index `i` (`0` when the
call failed or the index is out of range). -/
def outcomeST (e : Except PyError SensResult) (i : Nat) : ℚ :=
  (e.toOption.map fun r => r.ST.getD i 0).getD 0

/-- The `ST_conf` component of an `analyze` outcome at index `i`. -/
def outcomeSTconf (e : Except PyError SensResult) (i : Nat) : ℚ :=
  (e.toOption.map fun r => r.ST_conf.getD i 0).getD 0

/-- Modelled from the spec: the external Sequence Collaborator
`sobol_sequence.sample(count, dims)` (its code is not under src/) is a
deterministic low-discrepancy sequence generator; `seqPt i j` is coordinate
`j` of its point `i`, and `sample(count, dims)` returns the first `count`
points, so overlapping requests agree on their common prefix. -/
def seqSample (seqPt : Nat → Nat → ℚ) (count dims : Nat) : List (List ℚ) :=
  (List.range count).map fun i => (List.range dims).map fun j => seqPt i j

/-- Modelled from the spec: the external linear Scaling Collaborator
`scale_samples` (its code is not under src/) maps each unit-cube coordinate
`v` of a column into that parameter's bounds `[low, high)` linearly, as
`low + v * (high - low)`. -/
def scaleVal (b : ℚ × ℚ) (v : ℚ) : ℚ := b.1 + v * (b.2 - b.1)

/-- One row scaled into the bounds, column by column. -/
def scaleRow (bounds : List (ℚ × ℚ)) (row : List ℚ) : List ℚ :=
  List.zipWith scaleVal bounds row

namespace Radial

/-- Row `k+1` of a radial block:
`np.copyto(block_rows, np.diag(pert), where=diag != 0)` writes, in the row for
dimension `k`, the diagonal entry `pert[k]` into coordinate `k` when that
entry is non-zero; every other coordinate of the row, and coordinate `k` when
`pert[k] == 0`, keeps the repeated baseline value. -/
def perturbRow (pert base : List ℚ) (k : Nat) : List ℚ :=
  (List.range base.length).map fun c =>
    if c = k ∧ pert.getD k 0 ≠ 0 then pert.getD k 0 else base.getD c 0

/-- One `(num_vars+1)`-row block of the radial design: the baseline row
(`np.repeat` row 0 of the group) followed by its `num_vars` one-coordinate
perturbations. -/
def block (num_vars : Nat) (pert base : List ℚ) : List (List ℚ) :=
  base :: (List.range num_vars).map (perturbRow pert base)

/-- The scaled baseline of replicate `b`: with `discard = 4`, row `b` of
`sobol_sequence.sample(N+4, num_vars)[4:]` is sequence point `4 + b`,
scaled into the bounds. -/
def baseRow (seqPt : Nat → Nat → ℚ) (p : Problem) (b : Nat) : List ℚ :=
  scaleRow p.bounds ((List.range p.num_vars).map (seqPt (4 + b)))

/-- The scaled perturbation vector of replicate `b`: with `R = N + 4`, row
`b` of `sobol_sequence.sample(R+N, num_vars)[R:]` is sequence point
`N + 4 + b`, scaled into the bounds. -/
def pertVec (seqPt : Nat → Nat → ℚ) (p : Problem) (N b : Nat) : List ℚ :=
  scaleRow p.bounds ((List.range p.num_vars).map (seqPt (N + 4 + b)))

/-- `sample` from `radial.py`.  The source first runs
`if seed: np.random.seed(seed)` — that only resets the global numpy
generator, and no later statement draws from it, so the returned matrix is a
function of the sequence collaborator, the problem and `N` alone; the `seed`
argument is kept to mirror the signature.  The matrix is the `N` groups in
order, each the repeated scaled baseline overwritten on its diagonal by the
non-zero entries of `np.diag(perturbations[i])`. -/
def sample (seqPt : Nat → Nat → ℚ) (problem : Problem) (N : Nat)
    (seed : Option Int) : List (List ℚ) :=
  let num_vars := problem.num_vars
  let discard := 4
  let R := N + discard
  let subsetted_base :=
    ((seqSample seqPt R num_vars).drop discard).map (scaleRow problem.bounds)
  let perturbations :=
    ((seqSample seqPt (R + N) num_vars).drop R).map (scaleRow problem.bounds)
  (List.range N).flatMap fun i =>
    block num_vars (perturbations.getD i []) (subsetted_base.getD i [])

end Radial

namespace Latin

/-- `temp[j] = np.random.uniform(low=j*d, high=(j+1)*d)` with `d = 1/N`:
the collaborating RNG contributes the unit draw `u i j` for dimension `i`,
and the stratified value is `(j + u i j) / N`. -/
def temp (N : Nat) (u : Nat → Nat → ℚ) (i j : Nat) : ℚ :=
  ((j : ℚ) + u i j) / (N : ℚ)

/-- Application of the shuffle permutation to a plain index below `N`. -/
def permApp {N : Nat} (e : Equiv.Perm (Fin N)) (j : Nat) : Nat :=
  if h : j < N then (e ⟨j, h⟩ : Fin N).val else j

/-- The pre-scaling matrix `result` of `latin.sample`: for each dimension
`i` the `N` stratified draws are shuffled by `np.random.shuffle`, modelled
as the permutation `σ i`, so entry `(j, i)` is `temp[σ i j]`. -/
def preSample (N D : Nat) (u : Nat → Nat → ℚ) (σ : Nat → Equiv.Perm (Fin N)) :
    List (List ℚ) :=
  (List.range N).map fun j =>
    (List.range D).map fun i => temp N u i (permApp (σ i) j)

/-- `sample` from `latin.py`: build the stratified-and-shuffled matrix, then
scale it linearly into the bounds when no `dists` are given, else through
the external inverse-CDF collaborator `nus` (`nonuniform_scale_samples`,
modelled from the spec: its code is not under src/ and it returns a matrix
of identical shape). -/
def sample (nus : List (List ℚ) → List (ℚ × ℚ) → List String → List (List ℚ))
    (problem : Problem) (N : Nat) (u : Nat → Nat → ℚ)
    (σ : Nat → Equiv.Perm (Fin N)) : List (List ℚ) :=
  let result := preSample N problem.num_vars u σ
  match problem.dists with
  | none => result.map (scaleRow problem.bounds)
  | some ds => nus result problem.bounds ds

end Latin

/-- The memory `analyze` can see: its inputs `Y` and `problem`, plus the
scratch matrix `st` it allocates locally with `np.empty` and then fills
in place. -/
structure AnalyzeMem where
  Y : List ℚ
  problem : Problem
  st : List (List ℚ)
deriving DecidableEq

/-- `st[i] = row`: the one in-place array write `analyze` performs, aimed at
the locally allocated `st`. -/
def writeSt (m : AnalyzeMem) (i : Nat) (row : List ℚ) : AnalyzeMem :=
  { m with st := m.st.set i row }

/-- State-passing rendition of `analyze`, making the array writes explicit:
slicing `Y`, `np.var`, the subtraction and the fancy indexing all allocate
fresh arrays, and the loop writes `st[i] = Y_base - Y[pos::nth]` only into
the local `st`; the memory travels through every branch, the failing ones
included. -/
def analyzeRun (ppf sqrtQ : ℚ → ℚ) (ridx : Nat → Nat → Nat)
    (sample_sets num_resamples : Nat) (conf_level : ℚ) (seed : Option Int)
    (m0 : AnalyzeMem) : Except PyError SensResult × AnalyzeMem :=
  let num_vars := m0.problem.num_vars
  if (m0.Y.length : ℚ) / (sample_sets : ℚ) = (num_vars : ℚ) + 1 then
    if seedTruthy seed then
      (.error .setSeedMissing, m0)
    else
      let m1 := { m0 with st := List.replicate num_vars [] }
      let m2 := (List.range num_vars).foldl
        (fun m i => writeSt m i (stRow m.Y num_vars i)) m1
      (match compute_radial_si_confidence ppf sqrtQ ridx m2.Y sample_sets
          num_vars num_resamples conf_level with
      | .ok conf =>
          .ok { names := m2.problem.names
                ST := analyzeST m2.Y sample_sets num_vars
                ST_conf := conf }
      | .error e => .error e, m2)
  else
    (.error .shapeAssertionFailed, m0)

section Helpers

/-- Reading a map over `List.range` below the bound. -/
lemma getD_map_range {α : Type} {f : Nat → α} {n k : Nat} {d : α} (h : k < n) :
    ((List.range n).map f).getD k d = f k := by
  simp [List.getD_eq_getElem?_getD, List.getElem?_map, List.getElem?_range h]

/-- The length of a `flatMap` over `List.range` with blocks of one length. -/
lemma length_flatMap_const {α : Type} (f : Nat → List α) (m : Nat) :
    ∀ N : Nat, (∀ b < N, (f b).length = m) →
      ((List.range N).flatMap f).length = N * m := by
  intro N
  induction N with
  | zero => simp
  | succ n ih =>
      intro hm
      rw [List.range_succ, List.flatMap_append, List.length_append,
        ih fun b hb => hm b (by omega)]
      simp [hm n (by omega), Nat.succ_mul]

/-- Reading entry `j` of block `b` of a `flatMap` over `List.range` with
blocks of one length. -/
lemma getD_flatMap_const {α : Type} (f : Nat → List α) (m : Nat) (d : α) :
    ∀ N b j : Nat, (∀ i < N, (f i).length = m) → b < N → j < m →
      ((List.range N).flatMap f).getD (b * m + j) d = (f b).getD j d := by
  intro N
  induction N with
  | zero => omega
  | succ n ih =>
      intro b j hm hb hj
      rw [List.range_succ, List.flatMap_append]
      rcases Nat.lt_or_ge b n with h | h
      · rw [List.getD_append]
        · exact ih b j (fun i hi => hm i (by omega)) h hj
        · rw [length_flatMap_const f m n fun i hi => hm i (by omega)]
          calc b * m + j < b * m + m := by omega
            _ = (b + 1) * m := by ring
            _ ≤ n * m := Nat.mul_le_mul_right m (by omega)
      · have hbn : b = n := by omega
        subst hbn
        rw [List.getD_append_right]
        · rw [length_flatMap_const f m b fun i hi => hm i (by omega)]
          simp [Nat.add_sub_cancel_left]
        · rw [length_flatMap_const f m b fun i hi => hm i (by omega)]
          omega

/-- Under the shape precondition, the Python slice `Y[start::step]` with
`start < step` has exactly one entry per replicate. -/
lemma pySlice_eq (Y : List ℚ) (S step start : Nat) (hstep : 1 ≤ step)
    (hlen : Y.length = S * step) (hstart : start < step) :
    pySlice Y start step =
      (List.range S).map fun k => Y.getD (start + k * step) 0 := by
  unfold pySlice
  rw [hlen]
  congr 1
  congr 1
  rcases Nat.eq_zero_or_pos S with hS | hS
  · subst hS
    have h0 : 0 * step - start + step - 1 = step - 1 := by omega
    rw [h0]
    exact Nat.div_eq_of_lt (by omega)
  · have h1 : step ≤ S * step := Nat.le_mul_of_pos_left step hS
    apply Nat.div_eq_of_lt_le
    · omega
    · have : (S + 1) * step = S * step + step := by ring
      omega

/-- A positive `np.var` needs at least two data points. -/
lemma two_le_length_of_npVar_pos {xs : List ℚ} (h : 0 < npVar xs) :
    2 ≤ xs.length := by
  match xs with
  | [] => norm_num [npVar] at h
  | [x] => norm_num [npVar] at h
  | a :: b :: t => simp only [List.length_cons]; omega

/-- The division test of the shape assertion is exact divisibility. -/
lemma shape_cond_iff (Y : List ℚ) (S D : Nat) (hS : 1 ≤ S) :
    ((Y.length : ℚ) / (S : ℚ) = (D : ℚ) + 1) ↔ Y.length = S * (D + 1) := by
  have hS0 : (S : ℚ) ≠ 0 := Nat.cast_ne_zero.mpr (by omega)
  have hcast : ((S * (D + 1) : ℕ) : ℚ) = ((D : ℚ) + 1) * (S : ℚ) := by
    push_cast
    ring
  rw [div_eq_iff hS0, ← hcast, Nat.cast_inj]

end Helpers

section AnalyzeLemmas

/-- When the shape check passes, the seed is absent and the confidence level
is valid, `analyze` succeeds with the assembled result. -/
lemma analyze_ok (ppf sqrtQ : ℚ → ℚ) (ridx : Nat → Nat → Nat) (p : Problem)
    (Y : List ℚ) (S m : Nat) (conf : ℚ) (hS : 1 ≤ S)
    (hlen : Y.length = S * (p.num_vars + 1)) (hconf : 0 < conf ∧ conf < 1) :
    analyze ppf sqrtQ ridx p Y S m conf none =
      .ok { names := p.names
            ST := analyzeST Y S p.num_vars
            ST_conf := confVec ppf sqrtQ ridx Y S p.num_vars m conf } := by
  simp only [analyze, compute_radial_si_confidence]
  rw [if_pos ((shape_cond_iff Y S p.num_vars hS).mpr hlen), if_pos hconf]
  rfl

/-- The `st` row is the replicate-indexed list of elementary effects. -/
lemma stRow_eq (Y : List ℚ) (S D i : Nat)
    (hlen : Y.length = S * (D + 1)) (hi : i < D) :
    stRow Y D i = (List.range S).map fun k =>
      Y.getD (k * (D + 1)) 0 - Y.getD (i + 1 + k * (D + 1)) 0 := by
  unfold stRow
  rw [pySlice_eq Y S (D + 1) 0 (by omega) hlen (by omega),
    pySlice_eq Y S (D + 1) (i + 1) (by omega) hlen (by omega),
    List.zipWith_map, List.zipWith_same]
  simp

/-- Entry `i` of the `ST` vector, written as the spec writes it. -/
lemma analyzeST_getD (Y : List ℚ) (S D i : Nat)
    (hlen : Y.length = S * (D + 1)) (hi : i < D) :
    (analyzeST Y S D).getD i 0 =
      ((List.range S).map fun k =>
        (Y.getD (k * (D + 1)) 0 - Y.getD (k * (D + 1) + (i + 1)) 0) ^ 2).sum
        / (2 * (S : ℚ)) / npVar (pySlice Y 0 (D + 1)) := by
  unfold analyzeST
  rw [getD_map_range hi, stRow_eq Y S D i hlen hi]
  unfold jansen_estimator
  rw [List.map_map]
  have harg : ((fun x => x ^ 2) ∘ fun k =>
        Y.getD (k * (D + 1)) 0 - Y.getD (i + 1 + k * (D + 1)) 0)
      = fun k =>
        (Y.getD (k * (D + 1)) 0 - Y.getD (k * (D + 1) + (i + 1)) 0) ^ 2 := by
    funext k
    simp only [Function.comp]
    rw [Nat.add_comm (i + 1) (k * (D + 1))]
  rw [harg, one_div, inv_mul_eq_div]

end AnalyzeLemmas

section RadialLemmas

lemma block_length (D : Nat) (pert base : List ℚ) :
    (Radial.block D pert base).length = D + 1 := by
  simp [Radial.block]

lemma perturbRow_length (pert base : List ℚ) (k : Nat) :
    (Radial.perturbRow pert base k).length = base.length := by
  simp [Radial.perturbRow]

lemma perturbRow_getD (pert base : List ℚ) (k c : Nat) (hc : c < base.length) :
    (Radial.perturbRow pert base k).getD c 0 =
      if c = k ∧ pert.getD k 0 ≠ 0 then pert.getD k 0 else base.getD c 0 := by
  unfold Radial.perturbRow
  exact getD_map_range hc

lemma baseRow_length (seqPt : Nat → Nat → ℚ) (p : Problem) (b : Nat)
    (hb : p.bounds.length = p.num_vars) :
    (Radial.baseRow seqPt p b).length = p.num_vars := by
  simp [Radial.baseRow, scaleRow, hb]

lemma pertVec_length (seqPt : Nat → Nat → ℚ) (p : Problem) (N b : Nat)
    (hb : p.bounds.length = p.num_vars) :
    (Radial.pertVec seqPt p N b).length = p.num_vars := by
  simp [Radial.pertVec, scaleRow, hb]

/-- The radial design has `N` groups of `num_vars + 1` rows. -/
lemma radial_sample_length (seqPt : Nat → Nat → ℚ) (p : Problem) (N : Nat)
    (seed : Option Int) :
    (Radial.sample seqPt p N seed).length = N * (p.num_vars + 1) := by
  simp only [Radial.sample]
  exact length_flatMap_const _ _ N fun b hb => block_length _ _ _

/-- Row `j` of group `b` of the radial design is row `j` of the block built
from the scaled baseline `4 + b` and the scaled perturbation `N + 4 + b`. -/
lemma radial_sample_getD (seqPt : Nat → Nat → ℚ) (p : Problem) (N : Nat)
    (seed : Option Int) (b j : Nat) (hb : b < N) (hj : j < p.num_vars + 1) :
    (Radial.sample seqPt p N seed).getD (b * (p.num_vars + 1) + j) [] =
      (Radial.block p.num_vars (Radial.pertVec seqPt p N b)
        (Radial.baseRow seqPt p b)).getD j [] := by
  simp only [Radial.sample]
  rw [getD_flatMap_const _ _ _ N b j (fun i hi => block_length _ _ _) hb hj]
  have hbase :
      ((((seqSample seqPt (N + 4) p.num_vars).drop 4).map
        (scaleRow p.bounds)).getD b []) = Radial.baseRow seqPt p b := by
    simp [List.getD_eq_getElem?_getD, List.getElem?_map, List.getElem?_drop,
      seqSample, List.getElem?_range (show 4 + b < N + 4 by omega),
      Radial.baseRow]
  have hpert :
      ((((seqSample seqPt (N + 4 + N) p.num_vars).drop (N + 4)).map
        (scaleRow p.bounds)).getD b []) = Radial.pertVec seqPt p N b := by
    simp [List.getD_eq_getElem?_getD, List.getElem?_map, List.getElem?_drop,
      seqSample, List.getElem?_range (show N + 4 + b < N + 4 + N by omega),
      Radial.pertVec]
  rw [hbase, hpert]

lemma block_getD_zero (D : Nat) (pert base : List ℚ) :
    (Radial.block D pert base).getD 0 [] = base := rfl

lemma block_getD_succ (D : Nat) (pert base : List ℚ) (k : Nat) (hk : k < D) :
    (Radial.block D pert base).getD (k + 1) [] =
      Radial.perturbRow pert base k := by
  simp only [Radial.block, List.getD_cons_succ]
  exact getD_map_range hk

end RadialLemmas

section LatinLemmas

lemma preSample_length (N D : Nat) (u : Nat → Nat → ℚ)
    (σ : Nat → Equiv.Perm (Fin N)) : (Latin.preSample N D u σ).length = N := by
  simp [Latin.preSample]

lemma preSample_getD (N D : Nat) (u : Nat → Nat → ℚ)
    (σ : Nat → Equiv.Perm (Fin N)) (j i : Nat) (hj : j < N) (hi : i < D) :
    ((Latin.preSample N D u σ).getD j []).getD i 0 =
      Latin.temp N u i (Latin.permApp (σ i) j) := by
  unfold Latin.preSample
  rw [getD_map_range hj, getD_map_range hi]

lemma permApp_lt {N : Nat} (e : Equiv.Perm (Fin N)) {j : Nat} (hj : j < N) :
    Latin.permApp e j < N := by
  unfold Latin.permApp
  rw [dif_pos hj]
  exact (e ⟨j, hj⟩).isLt

/-- A stratified value sits in stratum `s` exactly when its stratum index is
`s`: for `0 ≤ uv < 1` and `0 < N`, `s/N ≤ (m + uv)/N < (s+1)/N ↔ m = s`. -/
lemma temp_mem_stratum_iff (N m s : Nat) (uv : ℚ) (hN : 0 < N)
    (hu0 : 0 ≤ uv) (hu1 : uv < 1) :
    ((s : ℚ) / (N : ℚ) ≤ ((m : ℚ) + uv) / (N : ℚ) ∧
      ((m : ℚ) + uv) / (N : ℚ) < ((s : ℚ) + 1) / (N : ℚ)) ↔ m = s := by
  have hNQ : (0 : ℚ) < (N : ℚ) := by exact_mod_cast hN
  rw [div_le_div_iff_of_pos_right hNQ, div_lt_div_iff_of_pos_right hNQ]
  constructor
  · rintro ⟨h1, h2⟩
    have hms : (m : ℚ) < (s : ℚ) + 1 := by linarith
    have hsm : (s : ℚ) < (m : ℚ) + 1 := by linarith
    have hms' : m < s + 1 := by exact_mod_cast hms
    have hsm' : s < m + 1 := by exact_mod_cast hsm
    omega
  · rintro rfl
    constructor
    · linarith
    · linarith

end LatinLemmas

section FrameLemmas

/-- A fold of `st`-writes leaves `Y` and `problem` as they were. -/
lemma foldl_writeSt_frame (g : AnalyzeMem → Nat → List ℚ) :
    ∀ (l : List Nat) (m : AnalyzeMem),
      (l.foldl (fun m i => writeSt m i (g m i)) m).Y = m.Y ∧
        (l.foldl (fun m i => writeSt m i (g m i)) m).problem = m.problem := by
  intro l
  induction l with
  | nil => exact fun m => ⟨rfl, rfl⟩
  | cons a t ih =>
      intro m
      rw [List.foldl_cons]
      exact ih (writeSt m a (g m a))

end FrameLemmas

section MoreHelpers

/-- The whole `ST` vector, written the way the spec writes it. -/
lemma analyzeST_eq (Y : List ℚ) (S D : Nat) (hlen : Y.length = S * (D + 1)) :
    analyzeST Y S D = (List.range D).map fun i =>
      ((List.range S).map fun k =>
        (Y.getD (k * (D + 1)) 0 - Y.getD (k * (D + 1) + (i + 1)) 0) ^ 2).sum
        / (2 * (S : ℚ))
        / npVar ((List.range S).map fun k => Y.getD (k * (D + 1)) 0) := by
  have hbase : pySlice Y 0 (D + 1) =
      (List.range S).map fun k => Y.getD (k * (D + 1)) 0 := by
    rw [pySlice_eq Y S (D + 1) 0 (by omega) hlen (by omega)]
    simp
  unfold analyzeST
  apply List.map_congr_left
  intro i hi
  have hi' : i < D := List.mem_range.mp hi
  rw [hbase, stRow_eq Y S D i hlen hi']
  unfold jansen_estimator
  rw [List.map_map]
  have harg : ((fun x => x ^ 2) ∘ fun k =>
        Y.getD (k * (D + 1)) 0 - Y.getD (i + 1 + k * (D + 1)) 0)
      = fun k =>
        (Y.getD (k * (D + 1)) 0 - Y.getD (k * (D + 1) + (i + 1)) 0) ^ 2 := by
    funext k
    simp only [Function.comp]
    rw [Nat.add_comm (i + 1) (k * (D + 1))]
  rw [harg, one_div, inv_mul_eq_div]

/-- A truthy seed makes `analyze` die on `np.random.set_seed` whenever the
shape check passes. -/
lemma analyze_truthy_seed (ppf sqrtQ : ℚ → ℚ) (ridx : Nat → Nat → Nat)
    (p : Problem) (Y : List ℚ) (S m : Nat) (conf : ℚ) (s : Option Int)
    (hS : 1 ≤ S) (hlen : Y.length = S * (p.num_vars + 1))
    (hs : seedTruthy s = true) :
    analyze ppf sqrtQ ridx p Y S m conf s = .error .setSeedMissing := by
  simp only [analyze]
  rw [if_pos ((shape_cond_iff Y S p.num_vars hS).mpr hlen), if_pos hs]

/-- Every row of the radial design has one entry per parameter. -/
lemma radial_row_getD_length (seqPt : Nat → Nat → ℚ) (p : Problem) (N : Nat)
    (seed : Option Int) (j : Nat) (hbounds : p.bounds.length = p.num_vars)
    (hj : j < N * (p.num_vars + 1)) :
    ((Radial.sample seqPt p N seed).getD j []).length = p.num_vars := by
  have hD1 : 0 < p.num_vars + 1 := Nat.succ_pos _
  have hbN : j / (p.num_vars + 1) < N :=
    (Nat.div_lt_iff_lt_mul hD1).mpr hj
  have hrD : j % (p.num_vars + 1) < p.num_vars + 1 := Nat.mod_lt _ hD1
  have hdm := Nat.div_add_mod j (p.num_vars + 1)
  have hj' : j = j / (p.num_vars + 1) * (p.num_vars + 1) + j % (p.num_vars + 1) := by
    rw [Nat.mul_comm]
    omega
  rw [hj', radial_sample_getD seqPt p N seed _ _ hbN hrD]
  rcases Nat.eq_zero_or_pos (j % (p.num_vars + 1)) with h0 | hpos
  · rw [h0, block_getD_zero]
    exact baseRow_length seqPt p _ hbounds
  · obtain ⟨k, hk⟩ : ∃ k, j % (p.num_vars + 1) = k + 1 :=
      ⟨j % (p.num_vars + 1) - 1, by omega⟩
    rw [hk, block_getD_succ _ _ _ k (by omega), perturbRow_length]
    exact baseRow_length seqPt p _ hbounds

/-- Each row of the pre-scaling Latin matrix has one entry per dimension. -/
lemma preSample_row_length (N D : Nat) (u : Nat → Nat → ℚ)
    (σ : Nat → Equiv.Perm (Fin N)) :
    ∀ row ∈ Latin.preSample N D u σ, row.length = D := by
  intro row hrow
  rcases List.mem_map.mp hrow with ⟨j, hj, rfl⟩
  simp

/-- A shape-preserving transform keeps a uniform row length. -/
lemma shape_from_map_length {L M : List (List ℚ)} {n : Nat}
    (h : M.map List.length = L.map List.length)
    (hL : ∀ row ∈ L, row.length = n) : ∀ row ∈ M, row.length = n := by
  intro row hrow
  obtain ⟨m, hm, heq⟩ := List.mem_iff_getElem.mp hrow
  have hlen : M.length = L.length := by
    have hc := congrArg List.length h
    simpa using hc
  have hmL : m < L.length := by omega
  have hsome : some row.length = some (L[m].length) := by
    have hc := congrArg (fun l => l[m]?) h
    simp only [List.getElem?_map] at hc
    rw [List.getElem?_eq_getElem hm, List.getElem?_eq_getElem hmL] at hc
    simpa [heq] using hc
  rw [Option.some_inj.mp hsome]
  exact hL _ (List.getElem_mem hmL)

end MoreHelpers

section Fixtures

/-- A one-parameter problem on the unit interval, for concrete instances. -/
def probOne : Problem := { num_vars := 1, names := ["x1"], bounds := [(0, 1)], dists := none }

/-- A constant stand-in for `norm.ppf`, for concrete instances. -/
def ppfOne : ℚ → ℚ := fun _ => 1

/-- An identity stand-in for the square root, for concrete instances. -/
def sqrtId : ℚ → ℚ := fun x => x

/-- A constant stand-in for the `np.random.randint` draws. -/
def ridxZero : Nat → Nat → Nat := fun _ _ => 0

/-- A deterministic unit-cube sequence whose points coincide, allowed by the
spec's description of the Sequence Collaborator. -/
def cseq : Nat → Nat → ℚ := fun _ _ => 1 / 2

end Fixtures

/-- C1: for every `Y` satisfying the shape precondition, `analyze` (with the
default `conf_level = 0.95` and no seed) returns, for each dimension `i`,
`ST_i = (sum over replicates of (Y_base - Y_perturbed_i)^2) / (2*sample_sets)
/ base_variance`, with `Y_base` the position-0 entry of each `(D+1)`-block,
`Y_perturbed_i` the position-`i` entry of each block, and `base_variance`
the variance of `Y_base` across replicates (`np.var`). -/
theorem c1_jansen_total_effect (ppf sqrtQ : ℚ → ℚ) (ridx : Nat → Nat → Nat)
    (p : Problem) (Y : List ℚ) (S m : Nat) (hS : 1 ≤ S)
    (hlen : Y.length = S * (p.num_vars + 1)) :
    (analyze ppf sqrtQ ridx p Y S m (19 / 20) none).toOption.map SensResult.ST =
      some ((List.range p.num_vars).map fun i =>
        ((List.range S).map fun k =>
          (Y.getD (k * (p.num_vars + 1)) 0 -
            Y.getD (k * (p.num_vars + 1) + (i + 1)) 0) ^ 2).sum
          / (2 * (S : ℚ))
          / npVar ((List.range S).map fun k => Y.getD (k * (p.num_vars + 1)) 0)) := by
  rw [analyze_ok ppf sqrtQ ridx p Y S m (19 / 20) hS hlen (by norm_num)]
  simp only [Except.toOption, Option.map]
  rw [analyzeST_eq Y S p.num_vars hlen]

/-- Witness for C1 at `sample_sets = 2`, `D = 1`, `Y = [0, 1, 2, 3]`. -/
theorem c1_jansen_total_effect_witness :
    (analyze ppfOne sqrtId ridxZero probOne [0, 1, 2, 3] 2 1 (19 / 20)
        none).toOption.map SensResult.ST =
      some ((List.range 1).map fun i =>
        ((List.range 2).map fun k =>
          (([0, 1, 2, 3] : List ℚ).getD (k * 2) 0 -
            ([0, 1, 2, 3] : List ℚ).getD (k * 2 + (i + 1)) 0) ^ 2).sum
          / (2 * (2 : ℚ))
          / npVar ((List.range 2).map fun k =>
              ([0, 1, 2, 3] : List ℚ).getD (k * 2) 0)) :=
  c1_jansen_total_effect ppfOne sqrtId ridxZero probOne [0, 1, 2, 3] 2 1
    (by decide) (by decide)

/-- C4 (code bug): with any truthy seed the call to the nonexistent
`np.random.set_seed` raises an AttributeError, so a seeded `analyze` call on
well-shaped inputs fails instead of completing reproducibly. -/
theorem c4_seeded_analyze_crashes :
    analyze ppfOne sqrtId ridxZero probOne [0, 1, 2, 3] 2 1 (19 / 20) (some 7) =
      .error .setSeedMissing :=
  analyze_truthy_seed ppfOne sqrtId ridxZero probOne [0, 1, 2, 3] 2 1 (19 / 20)
    (some 7) (by decide) (by decide) rfl

/-- C5 (amended): the radial sampler never draws from the seeded generator,
so its output does not depend on the seed at all; any two seeds give
bit-identical output. -/
theorem c5_radial_seed_ignored (seqPt : Nat → Nat → ℚ) (p : Problem) (N : Nat)
    (s1 s2 : Option Int) :
    Radial.sample seqPt p N s1 = Radial.sample seqPt p N s2 := rfl

/-- Counterexample to C5 as stated: two calls differing only in the seed
return the same matrix, not different ones. -/
theorem c5_counterexample :
    (some 1 : Option Int) ≠ (some 2 : Option Int) ∧
    Radial.sample cseq probOne 1 (some 1) = Radial.sample cseq probOne 1 (some 2) :=
  ⟨by decide, rfl⟩

/-- C6: `analyze` fails with the shape-mismatch assertion, returning nothing
else, exactly when `Y.length / sample_sets` is not `num_vars + 1`. -/
theorem c6_shape_check_iff (ppf sqrtQ : ℚ → ℚ) (ridx : Nat → Nat → Nat)
    (p : Problem) (Y : List ℚ) (S m : Nat) (conf : ℚ) (seed : Option Int)
    (hS : 1 ≤ S) :
    analyze ppf sqrtQ ridx p Y S m conf seed = .error .shapeAssertionFailed ↔
      Y.length ≠ S * (p.num_vars + 1) := by
  constructor
  · intro h hlen
    simp only [analyze] at h
    rw [if_pos ((shape_cond_iff Y S p.num_vars hS).mpr hlen)] at h
    by_cases hseed : seedTruthy seed = true
    · rw [if_pos hseed] at h
      simp at h
    · rw [if_neg hseed] at h
      unfold compute_radial_si_confidence at h
      by_cases hc : 0 < conf ∧ conf < 1
      · rw [if_pos hc] at h
        simp at h
      · rw [if_neg hc] at h
        simp at h
  · intro hne
    simp only [analyze]
    rw [if_neg]
    intro hc
    exact hne ((shape_cond_iff Y S p.num_vars hS).mp hc)

/-- Witness for C6 at a five-entry `Y` with two sample sets and `D = 1`. -/
theorem c6_shape_check_iff_witness :
    (analyze ppfOne sqrtId ridxZero probOne [0, 1, 2, 3, 4] 2 1 (19 / 20) none =
        .error .shapeAssertionFailed) ↔
      ([0, 1, 2, 3, 4] : List ℚ).length ≠ 2 * (1 + 1) :=
  c6_shape_check_iff ppfOne sqrtId ridxZero probOne [0, 1, 2, 3, 4] 2 1
    (19 / 20) none (by decide)

/-- Counterexample to C7 as stated: a call with well-shaped inputs, a
confidence level outside `(0, 1)` and a truthy seed fails with the
AttributeError of `np.random.set_seed`, not with the ValueError. -/
theorem c7_counterexample :
    ([0, 1, 2, 3] : List ℚ).length = 2 * (probOne.num_vars + 1) ∧
    ¬ (0 < (2 : ℚ) ∧ (2 : ℚ) < 1) ∧
    analyze ppfOne sqrtId ridxZero probOne [0, 1, 2, 3] 2 1 2 (some 1) ≠
      .error .confLevelInvalid := by
  refine ⟨by decide, by norm_num, ?_⟩
  rw [analyze_truthy_seed ppfOne sqrtId ridxZero probOne [0, 1, 2, 3] 2 1 2
    (some 1) (by decide) (by decide) rfl]
  simp

/-- C7 (amended): for calls without a truthy seed (the truthy-seed path dies
earlier on the `np.random.set_seed` bug), an `analyze` call whose inputs
satisfy the shape precondition fails with the ValueError exactly when
`conf_level` lies outside the open interval `(0, 1)`. -/
theorem c7_conf_level_check_iff (ppf sqrtQ : ℚ → ℚ) (ridx : Nat → Nat → Nat)
    (p : Problem) (Y : List ℚ) (S m : Nat) (conf : ℚ) (hS : 1 ≤ S)
    (hlen : Y.length = S * (p.num_vars + 1)) :
    analyze ppf sqrtQ ridx p Y S m conf none = .error .confLevelInvalid ↔
      ¬ (0 < conf ∧ conf < 1) := by
  simp only [analyze, compute_radial_si_confidence]
  rw [if_pos ((shape_cond_iff Y S p.num_vars hS).mpr hlen)]
  by_cases hc : 0 < conf ∧ conf < 1
  · rw [if_pos hc]
    constructor
    · intro h
      simp [seedTruthy] at h
    · intro h
      exact absurd hc h
  · rw [if_neg hc]
    constructor
    · intro _
      exact hc
    · intro _
      rfl

/-- Witness for the amended C7 at `conf_level = 2`. -/
theorem c7_conf_level_check_iff_witness :
    (analyze ppfOne sqrtId ridxZero probOne [0, 1, 2, 3] 2 1 2 none =
        .error .confLevelInvalid) ↔
      ¬ (0 < (2 : ℚ) ∧ (2 : ℚ) < 1) :=
  c7_conf_level_check_iff ppfOne sqrtId ridxZero probOne [0, 1, 2, 3] 2 1 2
    (by decide) (by decide)

/-- C10: `analyze` never modifies its inputs: through every branch of the
state-passing rendition, returning or failing, the memory keeps the same `Y`
and the same problem definition (only the local scratch `st` is written). -/
theorem c10_analyze_preserves_inputs (ppf sqrtQ : ℚ → ℚ)
    (ridx : Nat → Nat → Nat) (S m : Nat) (conf : ℚ) (seed : Option Int)
    (m0 : AnalyzeMem) :
    (analyzeRun ppf sqrtQ ridx S m conf seed m0).2.Y = m0.Y ∧
    (analyzeRun ppf sqrtQ ridx S m conf seed m0).2.problem = m0.problem := by
  simp only [analyzeRun]
  by_cases h1 : (m0.Y.length : ℚ) / (S : ℚ) = (m0.problem.num_vars : ℚ) + 1
  · rw [if_pos h1]
    by_cases h2 : seedTruthy seed = true
    · rw [if_pos h2]
      exact ⟨rfl, rfl⟩
    · rw [if_neg h2]
      exact ⟨(foldl_writeSt_frame _ _ _).1, (foldl_writeSt_frame _ _ _).2⟩
  · rw [if_neg h1]
    exact ⟨rfl, rfl⟩

/-- C2 (amended): in each `(D+1)`-row block of the radial design, perturbed
row `k+1` differs from the block's baseline row in at most coordinate `k`;
and it differs in exactly zero coordinates only when the scaled perturbation
value for that replicate and dimension is zero or coincides with the
baseline's value in that coordinate. -/
theorem c2_perturbed_row_structure (seqPt : Nat → Nat → ℚ) (p : Problem)
    (N : Nat) (seed : Option Int) (hbounds : p.bounds.length = p.num_vars)
    (b k : Nat) (hb : b < N) (hk : k < p.num_vars) :
    (∀ c < p.num_vars, c ≠ k →
      ((Radial.sample seqPt p N seed).getD (b * (p.num_vars + 1) + (k + 1))
          []).getD c 0 =
        ((Radial.sample seqPt p N seed).getD (b * (p.num_vars + 1)) []).getD c 0) ∧
    ((Radial.sample seqPt p N seed).getD (b * (p.num_vars + 1) + (k + 1)) [] =
        (Radial.sample seqPt p N seed).getD (b * (p.num_vars + 1)) [] →
      (Radial.pertVec seqPt p N b).getD k 0 = 0 ∨
        (Radial.pertVec seqPt p N b).getD k 0 =
          ((Radial.sample seqPt p N seed).getD (b * (p.num_vars + 1)) []).getD k 0) := by
  have h0 : (Radial.sample seqPt p N seed).getD (b * (p.num_vars + 1)) [] =
      Radial.baseRow seqPt p b := by
    have h := radial_sample_getD seqPt p N seed b 0 hb (by omega)
    rw [Nat.add_zero] at h
    rw [h, block_getD_zero]
  have h1 : (Radial.sample seqPt p N seed).getD (b * (p.num_vars + 1) + (k + 1)) [] =
      Radial.perturbRow (Radial.pertVec seqPt p N b) (Radial.baseRow seqPt p b) k := by
    rw [radial_sample_getD seqPt p N seed b (k + 1) hb (by omega),
      block_getD_succ _ _ _ k hk]
  rw [h0, h1]
  constructor
  · intro c hc hck
    rw [perturbRow_getD _ _ k c (by rw [baseRow_length seqPt p b hbounds]; exact hc)]
    rw [if_neg fun hand => hck hand.1]
  · intro heq
    by_cases hz : (Radial.pertVec seqPt p N b).getD k 0 = 0
    · exact Or.inl hz
    · right
      have hkb : k < (Radial.baseRow seqPt p b).length := by
        rw [baseRow_length seqPt p b hbounds]
        exact hk
      have hcast := congrArg (fun l => l.getD k 0) heq
      simp only at hcast
      rw [perturbRow_getD _ _ k k hkb, if_pos ⟨rfl, hz⟩] at hcast
      exact hcast

/-- Witness for the amended C2 at the coinciding-coordinates sequence. -/
theorem c2_perturbed_row_structure_witness :
    (∀ c < 1, c ≠ 0 →
      ((Radial.sample cseq probOne 1 none).getD 1 []).getD c 0 =
        ((Radial.sample cseq probOne 1 none).getD 0 []).getD c 0) ∧
    ((Radial.sample cseq probOne 1 none).getD 1 [] =
        (Radial.sample cseq probOne 1 none).getD 0 [] →
      (Radial.pertVec cseq probOne 1 0).getD 0 0 = 0 ∨
        (Radial.pertVec cseq probOne 1 0).getD 0 0 =
          ((Radial.sample cseq probOne 1 none).getD 0 []).getD 0 0) :=
  c2_perturbed_row_structure cseq probOne 1 none (by decide) 0 0 (by decide)
    (by decide)

/-- Counterexample to C2 as stated: when the scaled perturbation value
coincides with the baseline coordinate, the perturbed row equals the
baseline row although the perturbation value is not zero. -/
theorem c2_counterexample :
    (Radial.sample cseq probOne 1 none).getD (0 * (probOne.num_vars + 1) + (0 + 1)) [] =
      (Radial.sample cseq probOne 1 none).getD (0 * (probOne.num_vars + 1)) [] ∧
    (Radial.pertVec cseq probOne 1 0).getD 0 0 ≠ 0 := by
  constructor
  · have h0 := radial_sample_getD cseq probOne 1 none 0 0 (by decide) (by decide)
    rw [Nat.add_zero] at h0
    rw [radial_sample_getD cseq probOne 1 none 0 (0 + 1) (by decide) (by decide),
      h0, block_getD_zero, block_getD_succ _ _ _ 0 (by decide)]
    norm_num [Radial.perturbRow, Radial.pertVec, Radial.baseRow, scaleRow,
      scaleVal, cseq, probOne, List.range_succ]
  · norm_num [Radial.pertVec, scaleRow, scaleVal, cseq, probOne, List.range_succ]

/-- C8: the radial design is an `(N*(D+1)) × D` matrix; the baseline of
group `b` is sequence row `4 + b` (the first `discard = 4` rows dropped)
scaled into bounds and repeated at the head of its `(D+1)`-row group, the
perturbed rows of group `b` are built from sequence row `N + 4 + b` (with
`R = N + 4`) scaled into bounds, and the two index ranges never overlap. -/
theorem c8_radial_layout (seqPt : Nat → Nat → ℚ) (p : Problem) (N : Nat)
    (seed : Option Int) (hbounds : p.bounds.length = p.num_vars) :
    (Radial.sample seqPt p N seed).length = N * (p.num_vars + 1) ∧
    (∀ row ∈ Radial.sample seqPt p N seed, row.length = p.num_vars) ∧
    (∀ b < N, (Radial.sample seqPt p N seed).getD (b * (p.num_vars + 1)) [] =
      scaleRow p.bounds ((List.range p.num_vars).map (seqPt (4 + b)))) ∧
    (∀ b < N, ∀ k < p.num_vars,
      (Radial.sample seqPt p N seed).getD (b * (p.num_vars + 1) + (k + 1)) [] =
        Radial.perturbRow
          (scaleRow p.bounds ((List.range p.num_vars).map (seqPt (N + 4 + b))))
          (scaleRow p.bounds ((List.range p.num_vars).map (seqPt (4 + b)))) k) ∧
    (∀ b < N, ∀ c < N, 4 + b ≠ N + 4 + c) := by
  refine ⟨radial_sample_length seqPt p N seed, ?_, ?_, ?_, ?_⟩
  · intro row hrow
    obtain ⟨n, hn, heq⟩ := List.mem_iff_getElem.mp hrow
    have hgd : (Radial.sample seqPt p N seed).getD n [] = row := by
      rw [List.getD_eq_getElem?_getD, List.getElem?_eq_getElem hn, heq]
      rfl
    rw [← hgd]
    apply radial_row_getD_length seqPt p N seed n hbounds
    rw [← radial_sample_length seqPt p N seed]
    exact hn
  · intro b hb
    have h := radial_sample_getD seqPt p N seed b 0 hb (by omega)
    rw [Nat.add_zero] at h
    rw [h, block_getD_zero, Radial.baseRow]
  · intro b hb k hk
    rw [radial_sample_getD seqPt p N seed b (k + 1) hb (by omega),
      block_getD_succ _ _ _ k hk, Radial.pertVec, Radial.baseRow]
  · intro b hb c hc
    omega

/-- Witness for C8 at one replicate of the one-parameter problem. -/
theorem c8_radial_layout_witness :
    (Radial.sample cseq probOne 1 none).length = 1 * (1 + 1) :=
  (c8_radial_layout cseq probOne 1 none (by decide)).1

/-- C9: under the shape precondition, a positive baseline variance and a
valid confidence level, every returned total-effect index and every returned
confidence half-width is nonnegative (given that the collaborating square
root is nonnegative on nonnegatives and the normal quantile of the upper
tail probability is nonnegative). -/
theorem c9_outputs_nonneg (ppf sqrtQ : ℚ → ℚ) (ridx : Nat → Nat → Nat)
    (p : Problem) (Y : List ℚ) (S m : Nat) (conf : ℚ) (hS : 1 ≤ S)
    (hlen : Y.length = S * (p.num_vars + 1))
    (hvar : 0 < npVar (pySlice Y 0 (p.num_vars + 1)))
    (hconf : 0 < conf ∧ conf < 1)
    (hppf : 0 ≤ ppf (1 / 2 + conf / 2))
    (hsqrt : ∀ x, 0 ≤ x → 0 ≤ sqrtQ x) :
    ∀ i, i < p.num_vars →
      0 ≤ outcomeST (analyze ppf sqrtQ ridx p Y S m conf none) i ∧
      0 ≤ outcomeSTconf (analyze ppf sqrtQ ridx p Y S m conf none) i := by
  intro i hi
  rw [analyze_ok ppf sqrtQ ridx p Y S m conf hS hlen hconf]
  unfold outcomeST outcomeSTconf
  simp only [Except.toOption, Option.map, Option.getD]
  constructor
  · unfold analyzeST
    rw [getD_map_range hi]
    apply div_nonneg _ (le_of_lt hvar)
    unfold jansen_estimator
    apply mul_nonneg (by positivity)
    apply List.sum_nonneg
    intro x hx
    rcases List.mem_map.mp hx with ⟨y, hy, rfl⟩
    positivity
  · unfold confVec
    rw [getD_map_range hi]
    apply mul_nonneg hppf
    unfold npStdDdof1
    apply hsqrt
    apply div_nonneg
    · apply List.sum_nonneg
      intro x hx
      rcases List.mem_map.mp hx with ⟨y, hy, rfl⟩
      positivity
    · have hS2 : 2 ≤ S := by
        have h2 := two_le_length_of_npVar_pos hvar
        rwa [pySlice_eq Y S (p.num_vars + 1) 0 (by omega) hlen (by omega),
          List.length_map, List.length_range] at h2
      simp only [List.length_map, List.length_range]
      have hcast : (2 : ℚ) ≤ (S : ℚ) := by exact_mod_cast hS2
      linarith

/-- Witness for C9 at `Y = [0, 1, 2, 3]`, two sample sets, `conf = 1/2`. -/
theorem c9_outputs_nonneg_witness :
    0 ≤ outcomeST (analyze ppfOne sqrtId ridxZero probOne [0, 1, 2, 3] 2 2
        (1 / 2) none) 0 ∧
    0 ≤ outcomeSTconf (analyze ppfOne sqrtId ridxZero probOne [0, 1, 2, 3] 2 2
        (1 / 2) none) 0 :=
  c9_outputs_nonneg ppfOne sqrtId ridxZero probOne [0, 1, 2, 3] 2 2 (1 / 2)
    (by decide) (by decide)
    (by norm_num [npVar, pySlice, probOne, List.range_succ])
    (by norm_num) (by norm_num [ppfOne]) (fun x h => h) 0 (by decide)

/-- C3: the Latin Hypercube sampler returns an `N × D` matrix, and for every
dimension the `N` pre-scaling values (each dimension's stratified draws,
independently shuffled before scaling) occupy the `N` disjoint width-`1/N`
strata with exactly one value in each stratum. -/
theorem c3_latin_stratification
    (nus : List (List ℚ) → List (ℚ × ℚ) → List String → List (List ℚ))
    (p : Problem) (N : Nat) (u : Nat → Nat → ℚ) (σ : Nat → Equiv.Perm (Fin N))
    (hbounds : p.bounds.length = p.num_vars) (hN : 1 ≤ N) (hD : 1 ≤ p.num_vars)
    (hnus : ∀ mat bs ds, (nus mat bs ds).map List.length = mat.map List.length)
    (hu : ∀ i < p.num_vars, ∀ j < N, 0 ≤ u i j ∧ u i j < 1) :
    (Latin.sample nus p N u σ).length = N ∧
    (∀ row ∈ Latin.sample nus p N u σ, row.length = p.num_vars) ∧
    (∀ i < p.num_vars, ∀ s < N, ∃! j, j < N ∧
      (s : ℚ) / (N : ℚ) ≤ ((Latin.preSample N p.num_vars u σ).getD j []).getD i 0 ∧
      ((Latin.preSample N p.num_vars u σ).getD j []).getD i 0 <
        ((s : ℚ) + 1) / (N : ℚ)) := by
  refine ⟨?_, ?_, ?_⟩
  · cases hd : p.dists with
    | none => simp [Latin.sample, hd, preSample_length]
    | some ds =>
        simp only [Latin.sample, hd]
        have hc := congrArg List.length
          (hnus (Latin.preSample N p.num_vars u σ) p.bounds ds)
        simpa [preSample_length] using hc
  · cases hd : p.dists with
    | none =>
        intro row hrow
        simp only [Latin.sample, hd] at hrow
        rcases List.mem_map.mp hrow with ⟨r, hr, rfl⟩
        have hrlen : r.length = p.num_vars :=
          preSample_row_length N p.num_vars u σ r hr
        simp [scaleRow, hbounds, hrlen]
    | some ds =>
        intro row hrow
        simp only [Latin.sample, hd] at hrow
        exact shape_from_map_length (hnus _ _ _)
          (preSample_row_length N p.num_vars u σ) row hrow
  · intro i hi s hs
    refine ⟨((σ i).symm ⟨s, hs⟩).val, ⟨((σ i).symm ⟨s, hs⟩).isLt, ?_⟩, ?_⟩
    · rw [preSample_getD N p.num_vars u σ _ i ((σ i).symm ⟨s, hs⟩).isLt hi]
      have hperm : Latin.permApp (σ i) ((σ i).symm ⟨s, hs⟩).val = s := by
        unfold Latin.permApp
        rw [dif_pos ((σ i).symm ⟨s, hs⟩).isLt]
        rw [Fin.eta, Equiv.apply_symm_apply]
      rw [hperm]
      exact (temp_mem_stratum_iff N s s (u i s) (by omega) (hu i hi s hs).1
        (hu i hi s hs).2).mpr rfl
    · rintro j' ⟨hj', hmem1, hmem2⟩
      rw [preSample_getD N p.num_vars u σ j' i hj' hi] at hmem1 hmem2
      have hmjN : Latin.permApp (σ i) j' < N := permApp_lt (σ i) hj'
      have hms : Latin.permApp (σ i) j' = s :=
        (temp_mem_stratum_iff N (Latin.permApp (σ i) j') s
          (u i (Latin.permApp (σ i) j')) (by omega)
          (hu i hi _ hmjN).1 (hu i hi _ hmjN).2).mp ⟨hmem1, hmem2⟩
      have happ : (σ i) ⟨j', hj'⟩ = ⟨s, hs⟩ := by
        apply Fin.ext
        have h1 : Latin.permApp (σ i) j' = ((σ i) ⟨j', hj'⟩).val := by
          unfold Latin.permApp
          rw [dif_pos hj']
        rw [← h1, hms]
      have h2 : (⟨j', hj'⟩ : Fin N) = (σ i).symm ⟨s, hs⟩ := by
        rw [← happ, Equiv.symm_apply_apply]
      exact congrArg Fin.val h2

/-- Identity stand-in for the inverse-CDF scaling collaborator. -/
def nusId : List (List ℚ) → List (ℚ × ℚ) → List String → List (List ℚ) :=
  fun m _ _ => m

/-- A constant unit draw for concrete Latin instances. -/
def uHalf : Nat → Nat → ℚ := fun _ _ => 1 / 2

/-- Identity shuffles for concrete Latin instances. -/
def permId : Nat → Equiv.Perm (Fin 2) := fun _ => Equiv.refl _

/-- Witness for C3 at `N = 2`, the one-parameter problem. -/
theorem c3_latin_stratification_witness :
    (Latin.sample nusId probOne 2 uHalf permId).length = 2 :=
  (c3_latin_stratification nusId probOne 2 uHalf permId (by decide) (by decide)
    (by decide) (fun _ _ _ => rfl) (fun i _ j _ => by norm_num [uHalf])).1
